import Mathlib

/-!
Shallow embedding of the Squirrel lazy data loader (`data_loader.py`):
the distributed batch slicing (`DistributedBatch.__init__`), the batch
assembler (`fetch_batch`), the resumable iterator loop
(`LazyBucketIterator.__iter__`), the lazy reader's per-tuple filter
(`lazy_reader`), and the built-in cost functions.  Python strings are
modelled as `List Char`, Python ints as `ℕ`, and numeric cost values as `ℚ`
(exact arithmetic standing in for Python's numbers).
-/

/-- Embeds the `start_pos` computation of `DistributedBatch.__init__`:
`mini = floor(B / W)`, `additional = B - mini * W`,
`start_pos = (R if additional > R else additional) + R * mini`. -/
def start_pos (B W R : ℕ) : ℕ :=
  (if B - B / W * W > R then R else B - B / W * W) + R * (B / W)

/-- Embeds the `end_pos` computation of `DistributedBatch.__init__`:
`end_pos = (R+1 if additional > R+1 else additional) + (R+1) * mini`. -/
def end_pos (B W R : ℕ) : ℕ :=
  (if B - B / W * W > R + 1 then R + 1 else B - B / W * W) + (R + 1) * (B / W)

/-- Embeds the slice `data[start_pos:end_pos]` taken by
`DistributedBatch.__init__` for rank `R` out of `W` ranks. -/
def shard (W R : ℕ) (data : List α) : List α :=
  (data.drop (start_pos data.length W R)).take
    (end_pos data.length W R - start_pos data.length W R)

/-- Embeds the main loop of `fetch_batch`.  State: `mb` is `minibatch`,
`size` is `size_so_far`; `reserved` is `reserved_minibatch`, appended to the
final yield (it is `[]` when `reserve=False`).  Appending `ex` gives
`minibatch.append(ex)`; the two emission branches mirror
`size_so_far == batch_size * world_size and len(minibatch) > world_size`
(yield the whole minibatch) and
`size_so_far > batch_size * world_size and len(minibatch) > world_size + 1`
(yield `minibatch[:-1] = mb`, keep `minibatch[-1:] = [ex]` with cost
`batch_size_fn(ex, 1, 0)`).  The trailing `[mb ++ reserved]` is the
unconditional final `yield minibatch` after the loop. -/
def fetch_loop (bs : ℚ) (f : α → ℕ → ℚ → ℚ) (W : ℕ) (reserved : List α) :
    List α → List α → ℚ → List (List α)
  | [], mb, _ => [mb ++ reserved]
  | ex :: rest, mb, size =>
    if f ex (mb ++ [ex]).length size = bs * (W : ℚ)
        ∧ W < (mb ++ [ex]).length then
      (mb ++ [ex]) :: fetch_loop bs f W reserved rest [] 0
    else if bs * (W : ℚ) < f ex (mb ++ [ex]).length size
        ∧ W + 1 < (mb ++ [ex]).length then
      mb :: fetch_loop bs f W reserved rest [ex] (f ex 1 0)
    else
      fetch_loop bs f W reserved rest (mb ++ [ex]) (f ex (mb ++ [ex]).length size)

/-- Embeds `fetch_batch(data, batch_size, batch_size_fn, world_size, reserve)`:
with `reserve=True` the loop's `it < world_size` guard diverts the first
`world_size` elements of `data` into `reserved_minibatch` and the loop runs
on the remainder; otherwise the loop runs on all of `data` with no reserve. -/
def fetch_batch (data : List α) (batch_size : ℚ) (f : α → ℕ → ℚ → ℚ)
    (world_size : ℕ) (reserve : Bool) : List (List α) :=
  if reserve then
    fetch_loop batch_size f world_size (data.take world_size)
      (data.drop world_size) [] 0
  else
    fetch_loop batch_size f world_size [] data [] 0

/-- Embeds the default `batch_size_fn` (used when `None` is passed, and by
`DataLoader` when `args.batch_size == 1`): `lambda new, count, sofar: count`. -/
def count_fn (_ : α) (count : ℕ) (_ : ℚ) : ℚ := count

/-- Folds a cost function over a batch the way `fetch_batch` accumulates
`size_so_far`: element at (1-based) position `i+1` contributes
`f ex (i+1) sofar`. -/
def accum_cost (f : α → ℕ → ℚ → ℚ) : List α → ℕ → ℚ → ℚ
  | [], _, s => s
  | e :: rest, i, s => accum_cost f rest (i + 1) (f e (i + 1) s)

/-- The accumulated cost of a whole batch, starting from position 0, cost 0. -/
def batch_cost (f : α → ℕ → ℚ → ℚ) (b : List α) : ℚ := accum_cost f b 0 0

/-- An example as seen by the `DataLoader` cost functions: two parallel
fields `src` and `trg`, each a list of tokens (tokens modelled as `List Char`). -/
structure PyExample where
  src : List (List Char)
  trg : List (List Char)
deriving DecidableEq

/-- `max(len(new.src), len(new.trg))` of `dyn_batch_*`. -/
def max_field_len (e : PyExample) : ℕ := max e.src.length e.trg.length

/-- The maximum of `max_field_len` over a batch (0 for an empty batch). -/
def batch_max_len (b : List PyExample) : ℕ := (b.map max_field_len).foldr max 0

/-- Embeds `dyn_batch_with_padding(new, i, sofar)`:
`prev_max_len = sofar / (i - 1) if i > 1 else 0`;
`t = max(len(new.src), len(new.trg), prev_max_len) * i` — with the division
taken exactly, in `ℚ`. -/
def dyn_batch_with_padding (new : PyExample) (i : ℕ) (sofar : ℚ) : ℚ :=
  max (max (new.src.length : ℚ) (new.trg.length : ℚ))
    (if 1 < i then sofar / ((i : ℚ) - 1) else 0) * (i : ℚ)

/-- Embeds `dyn_batch_without_padding(new, i, sofar)`:
`sofar + max(len(new.src), len(new.trg))`. -/
def dyn_batch_without_padding (new : PyExample) (_ : ℕ) (sofar : ℚ) : ℚ :=
  sofar + max (new.src.length : ℚ) (new.trg.length : ℚ)

/-- A `PyExample` whose maximal field holds `n` tokens (used as concrete
test data for the assembler theorems). -/
def ex_len (n : ℕ) : PyExample := ⟨List.replicate n [], []⟩

/-- Stable descending insertion by key: embeds the effect of Python's stable
`minibatch.sort(key=self.sort_key, reverse=True)` on one element. -/
def sort_desc_insert (key : α → ℕ) (x : α) : List α → List α
  | [] => [x]
  | y :: ys => if key y < key x then x :: y :: ys else y :: sort_desc_insert key x ys

/-- Deterministic descending sort by key (models `list.sort(reverse=True)`). -/
def sort_desc (key : α → ℕ) : List α → List α
  | [] => []
  | x :: xs => sort_desc_insert key x (sort_desc key xs)

/-- What `LazyBucketIterator.__iter__` does to one produced minibatch before
yielding: optionally sort it in decreasing key order (`sort_within_batch`),
then wrap it in `DistributedBatch`, which slices out the caller rank's shard. -/
def process_minibatch (swb : Bool) (key : α → ℕ) (W R : ℕ)
    (mb : List α) : List α :=
  if swb then shard W R (sort_desc key mb) else shard W R mb

/-- Embeds the body of `LazyBucketIterator.__iter__` for one epoch:
`k` is the loaded `_iterations_this_epoch` counter, `idx` the `enumerate`
index.  A batch is skipped when `counter > idx` (fast-forward); otherwise
the counter is incremented and the processed batch is yielded. -/
def iter_go (swb : Bool) (key : α → ℕ) (W R : ℕ) :
    ℕ → ℕ → List (List α) → List (List α)
  | _, _, [] => []
  | k, idx, mb :: rest =>
    if k > idx then iter_go swb key W R k (idx + 1) rest
    else process_minibatch swb key W R mb
      :: iter_go swb key W R (k + 1) (idx + 1) rest

/-- One epoch of `LazyBucketIterator.__iter__` over a deterministic batch
sequence, started with `_iterations_this_epoch = k`. -/
def epoch_iter (swb : Bool) (key : α → ℕ) (W R : ℕ) (k : ℕ)
    (batches : List (List α)) : List (List α) :=
  iter_go swb key W R k 0 batches

/-- Python whitespace test for a character. -/
def is_space (c : Char) : Bool := c.isWhitespace

/-- Embeds Python `str.strip()` on a string modelled as `List Char`. -/
def py_strip (s : List Char) : List Char :=
  ((s.dropWhile is_space).reverse.dropWhile is_space).reverse

/-- One step of whitespace splitting (builds the current word and the list of
completed words, scanning from the right). -/
def split_step (c : Char) (acc : List Char × List (List Char)) :
    List Char × List (List Char) :=
  if is_space c then
    (if acc.1 = [] then acc else ([], acc.1 :: acc.2))
  else (c :: acc.1, acc.2)

/-- Embeds Python `str.split()` (split on whitespace runs, no empty tokens). -/
def py_split (s : List Char) : List (List Char) :=
  if (s.foldr split_step ([], [])).1 = [] then (s.foldr split_step ([], [])).2
  else (s.foldr split_step ([], [])).1 :: (s.foldr split_step ([], [])).2

/-- Embeds the `flag` loop of `lazy_reader`: scan the stripped fields and
raise the flag as soon as one splits into more than `m` tokens. -/
def exceeds_max (m : ℕ) : List (List Char) → Bool
  | [] => false
  | l :: ls => if m < (py_split l).length then true else exceeds_max m ls

/-- Embeds what `lazy_reader` does with one aligned line-tuple: strip every
field; drop the tuple if any stripped field is empty; when `max_len` is set,
drop the tuple if any field splits into more than `max_len` tokens;
otherwise produce the stripped tuple as an example. -/
def read_tuple (lines : List (List Char)) (max_len : Option ℕ) :
    Option (List (List Char)) :=
  if (lines.map py_strip).any (fun l => l.isEmpty) then none
  else
    match max_len with
    | some m =>
      if exceeds_max m (lines.map py_strip) then none
      else some (lines.map py_strip)
    | none => some (lines.map py_strip)

theorem additional_eq (B W : ℕ) : B - B / W * W = B % W := by
  have h := Nat.div_add_mod B W
  rw [Nat.mul_comm (B / W) W]
  omega

theorem start_pos_eq (B W R : ℕ) :
    start_pos B W R = R * (B / W) + min R (B % W) := by
  rw [start_pos, additional_eq]
  split_ifs with h
  · rw [Nat.min_eq_left (Nat.le_of_lt h)]
    exact Nat.add_comm _ _
  · rw [Nat.min_eq_right (Nat.le_of_not_lt h)]
    exact Nat.add_comm _ _

theorem end_pos_eq (B W R : ℕ) :
    end_pos B W R = (R + 1) * (B / W) + min (R + 1) (B % W) := by
  rw [end_pos, additional_eq]
  split_ifs with h
  · rw [Nat.min_eq_left (Nat.le_of_lt h)]
    exact Nat.add_comm _ _
  · rw [Nat.min_eq_right (Nat.le_of_not_lt h)]
    exact Nat.add_comm _ _

theorem end_pos_eq_start_pos_succ (B W R : ℕ) :
    end_pos B W R = start_pos B W (R + 1) := by
  rw [end_pos_eq, start_pos_eq]

theorem start_pos_zero (B W : ℕ) : start_pos B W 0 = 0 := by
  rw [start_pos_eq]
  simp

theorem start_pos_top (B W : ℕ) (hW : 0 < W) : start_pos B W W = B := by
  rw [start_pos_eq, Nat.min_eq_right (Nat.le_of_lt (Nat.mod_lt B hW))]
  exact Nat.div_add_mod B W

theorem start_pos_mono (B W R : ℕ) :
    start_pos B W R ≤ start_pos B W (R + 1) := by
  rw [start_pos_eq, start_pos_eq]
  exact Nat.add_le_add
    (Nat.mul_le_mul_right _ (Nat.le_succ R))
    (min_le_min (Nat.le_succ R) (Nat.le_refl _))

theorem end_pos_le (B W R : ℕ) (h : R < W) : end_pos B W R ≤ B := by
  rw [end_pos_eq]
  calc (R + 1) * (B / W) + min (R + 1) (B % W)
      ≤ W * (B / W) + B % W :=
        Nat.add_le_add (Nat.mul_le_mul_right _ h) (Nat.min_le_right _ _)
    _ = B := Nat.div_add_mod B W

theorem shard_length (data : List α) (W R : ℕ) (h : R < W) :
    (shard W R data).length
      = data.length / W + (if R < data.length % W then 1 else 0) := by
  have hse : end_pos data.length W R - start_pos data.length W R
      = data.length / W + (if R < data.length % W then 1 else 0) := by
    rw [start_pos_eq, end_pos_eq, Nat.succ_mul, Nat.add_assoc,
      Nat.add_sub_add_left, Nat.min_def, Nat.min_def]
    generalize data.length / W = d
    generalize data.length % W = r
    split_ifs <;> omega
  have hle : end_pos data.length W R - start_pos data.length W R
      ≤ data.length - start_pos data.length W R :=
    Nat.sub_le_sub_right (end_pos_le data.length W R h) _
  rw [shard, List.length_take, List.length_drop, min_eq_left hle, hse]

/-- Claim C1: for every batch with `world_size <= len(batch)` and every rank
`R < world_size`, the slice `data[start_pos:end_pos]` computed by
`DistributedBatch.__init__` is non-empty. -/
theorem shard_nonempty (data : List α) (W R : ℕ)
    (hB : W ≤ data.length) (hR : R < W) : 1 ≤ (shard W R data).length := by
  have hW : 0 < W := Nat.lt_of_le_of_lt (Nat.zero_le R) hR
  have hdiv : 1 ≤ data.length / W := (Nat.one_le_div_iff hW).mpr hB
  rw [shard_length data W R hR]
  split_ifs
  · exact Nat.le_add_left 1 _
  · simpa using hdiv

theorem shard_nonempty_witness :
    2 ≤ ([0, 1, 2] : List ℕ).length ∧ 1 ≤ (shard 2 1 [0, 1, 2]).length :=
  ⟨by decide, shard_nonempty [0, 1, 2] 2 1 (by decide) (by decide)⟩

theorem shards_join_take (data : List α) (W : ℕ) :
    ∀ n : ℕ, ((List.range n).map (fun R => shard W R data)).flatten
      = data.take (start_pos data.length W n) := by
  intro n
  induction n with
  | zero => simp [start_pos_zero]
  | succ n ih =>
    rw [List.range_succ, List.map_append, List.flatten_append, ih]
    simp only [List.map_cons, List.map_nil, List.flatten_cons,
      List.flatten_nil, List.append_nil]
    have hmb : start_pos data.length W n
        + (start_pos data.length W (n + 1) - start_pos data.length W n)
        = start_pos data.length W (n + 1) :=
      Nat.add_sub_cancel' (start_pos_mono data.length W n)
    rw [shard, end_pos_eq_start_pos_succ, ← hmb, List.take_add]
    simp

/-- Claim C3: concatenating the `W` shards of `DistributedBatch` in rank
order reconstructs the batch exactly, and the shard sizes sum to the batch
length. -/
theorem shard_concat_complete (data : List α) (W : ℕ) (hW : 1 ≤ W) :
    ((List.range W).map (fun R => shard W R data)).flatten = data
    ∧ ((List.range W).map (fun R => (shard W R data).length)).sum
        = data.length := by
  have hjoin : ((List.range W).map (fun R => shard W R data)).flatten = data := by
    rw [shards_join_take data W W, start_pos_top data.length W hW,
      List.take_length]
  refine ⟨hjoin, ?_⟩
  have hlen := congrArg List.length hjoin
  rw [List.length_flatten, List.map_map] at hlen
  simpa [Function.comp] using hlen

theorem shard_concat_complete_witness :
    1 ≤ 2
    ∧ (((List.range 2).map (fun R => shard 2 R [0, 1, 2])).flatten = [0, 1, 2]
        ∧ ((List.range 2).map (fun R => (shard 2 R ([0, 1, 2] : List ℕ)).length)).sum = 3) :=
  ⟨by decide, by simpa using shard_concat_complete [0, 1, 2] 2 (by decide)⟩

/-- Claim C2: `DistributedBatch` computes `start = R*base + min(R, rem)` and
`end = start + base + (1 if R < rem else 0)` where `base = floor(B/W)` and
`rem = B - base*W`; for `B = 7`, `W = 3` the shard sizes are `[3, 2, 2]`
with starts `[0, 3, 5]`, and `W = 1` gives the whole batch to rank 0. -/
theorem shard_offsets_spec :
    (∀ B W R : ℕ, 1 ≤ W → R < W →
      start_pos B W R = R * (B / W) + min R (B % W)
      ∧ end_pos B W R
          = start_pos B W R + B / W + (if R < B % W then 1 else 0)
      ∧ B % W = B - B / W * W)
    ∧ ((List.range 3).map (fun R => (shard 3 R (List.range 7)).length)
        = [3, 2, 2])
    ∧ ((List.range 3).map (fun R => start_pos 7 3 R) = [0, 3, 5])
    ∧ (∀ data : List ℕ, shard 1 0 data = data) := by
  refine ⟨?_, by decide, by decide, ?_⟩
  · intro B W R _ _
    refine ⟨start_pos_eq B W R, ?_, (additional_eq B W).symm⟩
    rw [start_pos_eq, end_pos_eq, Nat.succ_mul, Nat.min_def, Nat.min_def]
    generalize B / W = d
    generalize B % W = r
    split_ifs <;> omega
  · intro data
    have he : end_pos data.length 1 0 = data.length := by
      rw [end_pos_eq_start_pos_succ]
      exact start_pos_top data.length 1 (by decide)
    rw [shard, start_pos_zero, he]
    simp

theorem shard_offsets_spec_witness :
    start_pos 7 3 2 = 2 * (7 / 3) + min 2 (7 % 3)
    ∧ end_pos 7 3 2 = start_pos 7 3 2 + 7 / 3 + (if 2 < 7 % 3 then 1 else 0)
    ∧ 7 % 3 = 7 - 7 / 3 * 3 :=
  shard_offsets_spec.1 7 3 2 (by decide) (by decide)

theorem fetch_loop_ne_nil (bs : ℚ) (f : α → ℕ → ℚ → ℚ) (W : ℕ)
    (reserved : List α) :
    ∀ (data mb : List α) (size : ℚ),
      fetch_loop bs f W reserved data mb size ≠ [] := by
  intro data
  induction data with
  | nil => intro mb size; simp [fetch_loop]
  | cons ex rest ih =>
    intro mb size
    rw [fetch_loop]
    split_ifs <;> simp [ih]

theorem accum_cost_append (f : α → ℕ → ℚ → ℚ) :
    ∀ (l : List α) (e : α) (i : ℕ) (s : ℚ),
      accum_cost f (l ++ [e]) i s
        = f e (i + l.length + 1) (accum_cost f l i s) := by
  intro l
  induction l with
  | nil => intro e i s; simp [accum_cost]
  | cons a l ih =>
    intro e i s
    simp only [List.cons_append, accum_cost, List.length_cons, List.append_eq]
    rw [ih]
    have h : i + 1 + l.length + 1 = i + (l.length + 1) + 1 := by omega
    rw [h]

theorem batch_cost_snoc (f : α → ℕ → ℚ → ℚ) (mb : List α) (ex : α) :
    batch_cost f (mb ++ [ex]) = f ex (mb.length + 1) (batch_cost f mb) := by
  rw [batch_cost, batch_cost, accum_cost_append f mb ex 0 0]
  norm_num

theorem fetch_loop_bounds (bs : ℚ) (f : α → ℕ → ℚ → ℚ) (W : ℕ)
    (reserved : List α) :
    ∀ (data mb : List α) (size : ℚ),
      size = batch_cost f mb →
      (W + 1 < mb.length → size ≤ bs * W) →
      ∀ b ∈ (fetch_loop bs f W reserved data mb size).dropLast,
        W < b.length ∧ (W + 1 < b.length → batch_cost f b ≤ bs * W) := by
  intro data
  induction data with
  | nil =>
    intro mb size _ _ b hb
    simp [fetch_loop] at hb
  | cons ex rest ih =>
    intro mb size hsize hmb b hb
    rw [fetch_loop] at hb
    split_ifs at hb with h1 h2
    · obtain ⟨c, L, hL⟩ :=
        List.exists_cons_of_ne_nil (fetch_loop_ne_nil bs f W reserved rest [] 0)
      rw [hL, List.dropLast_cons₂, List.mem_cons] at hb
      rcases hb with hb | hb
      · subst hb
        refine ⟨h1.2, fun _ => ?_⟩
        have hlen : (mb ++ [ex]).length = mb.length + 1 := by simp
        rw [batch_cost_snoc, ← hsize, ← hlen, h1.1]
      · exact ih [] 0 rfl (fun h => absurd h (by simp)) b (hL ▸ hb)
    · obtain ⟨c, L, hL⟩ :=
        List.exists_cons_of_ne_nil
          (fetch_loop_ne_nil bs f W reserved rest [ex] (f ex 1 0))
      rw [hL, List.dropLast_cons₂, List.mem_cons] at hb
      rcases hb with hb | hb
      · subst hb
        have hlen : W < b.length := by
          have h22 := h2.2
          rw [List.length_append] at h22
          simp only [List.length_cons, List.length_nil] at h22
          omega
        exact ⟨hlen, fun h => hsize ▸ hmb h⟩
      · refine ih [ex] (f ex 1 0) rfl (fun h => absurd h ?_) b (hL ▸ hb)
        simp only [List.length_cons, List.length_nil]
        omega
    · refine ih (mb ++ [ex]) (f ex (mb ++ [ex]).length size) ?_ ?_ b hb
      · rw [batch_cost_snoc, ← hsize]
        simp
      · intro h
        exact le_of_not_lt (fun hA => h2 ⟨hA, h⟩)

/-- Claim C4 (amended): for every input sequence and every cost function that
is monotonically non-decreasing as examples are appended, every batch yielded
by `fetch_batch` other than the final one has length strictly greater than
`world_size`, and every such batch of length greater than `world_size + 1`
has accumulated cost at most `batch_size * world_size`.  (A deferred-overshoot
batch of length exactly `world_size + 1` may exceed the bound — see the
counterexample.) -/
theorem fetch_batch_cost_bound_amended (data : List α) (bs : ℚ)
    (f : α → ℕ → ℚ → ℚ) (W : ℕ) (reserve : Bool)
    (_hmono : ∀ (e : α) (n : ℕ) (s : ℚ), s ≤ f e n s) :
    ∀ b ∈ (fetch_batch data bs f W reserve).dropLast,
      W < b.length ∧ (W + 1 < b.length → batch_cost f b ≤ bs * W) := by
  rw [fetch_batch]
  split_ifs <;>
    exact fetch_loop_bounds bs f W _ _ [] 0 rfl (fun h => absurd h (by simp))

theorem dyn_batch_without_padding_mono (e : PyExample) (n : ℕ) (s : ℚ) :
    s ≤ dyn_batch_without_padding e n s :=
  le_add_of_nonneg_right (le_trans (Nat.cast_nonneg _) (le_max_left _ _))

theorem fetch_batch_cost_bound_amended_witness :
    1 < ([ex_len 1, ex_len 1] : List PyExample).length
    ∧ (1 + 1 < ([ex_len 1, ex_len 1] : List PyExample).length
        → batch_cost dyn_batch_without_padding [ex_len 1, ex_len 1] ≤ 2 * 1) :=
  fetch_batch_cost_bound_amended
    [ex_len 1, ex_len 1, ex_len 1, ex_len 1] 2 dyn_batch_without_padding 1
    false dyn_batch_without_padding_mono [ex_len 1, ex_len 1]
    (by norm_num [fetch_batch, fetch_loop, dyn_batch_without_padding, ex_len,
      max_field_len])

/-- Claim C4 counterexample: with the (monotone) cost function
`dyn_batch_without_padding`, examples of maximal field lengths `[5, 1, 1]`,
`batch_size = 3` and `world_size = 1`, the first (non-final) emitted batch is
`[ex_len 5, ex_len 1]`, whose accumulated cost `6` exceeds
`batch_size * world_size = 3`; its length `2 > world_size` — so a non-final
batch violates the claimed cost bound even though the overshooting example
was deferred. -/
theorem fetch_batch_cost_bound_cex :
    (fetch_batch [ex_len 5, ex_len 1, ex_len 1] 3
        dyn_batch_without_padding 1 false).dropLast = [[ex_len 5, ex_len 1]]
    ∧ 3 * ((1 : ℕ) : ℚ)
        < batch_cost dyn_batch_without_padding [ex_len 5, ex_len 1]
    ∧ 1 < ([ex_len 5, ex_len 1] : List PyExample).length := by
  refine ⟨?_, ?_, by norm_num⟩
  · norm_num [fetch_batch, fetch_loop, dyn_batch_without_padding, ex_len,
      max_field_len]
  · norm_num [batch_cost, accum_cost, dyn_batch_without_padding, ex_len]

theorem getLastD_cons_of_ne_nil {β : Type u} (x d : β) (L : List β)
    (h : L ≠ []) : (x :: L).getLastD d = L.getLastD d := by
  cases L with
  | nil => exact absurd rfl h
  | cons c t => simp only [List.getLastD_cons]

theorem fetch_loop_reserved (bs : ℚ) (f : α → ℕ → ℚ → ℚ) (W : ℕ)
    (r : List α) :
    ∀ (data mb : List α) (size : ℚ),
      fetch_loop bs f W r data mb size
        = (fetch_loop bs f W [] data mb size).dropLast
          ++ [(fetch_loop bs f W [] data mb size).getLastD [] ++ r] := by
  intro data
  induction data with
  | nil => intro mb size; simp [fetch_loop]
  | cons ex rest ih =>
    intro mb size
    rw [fetch_loop, fetch_loop]
    split_ifs with h1 h2
    · obtain ⟨c, L, hL⟩ :=
        List.exists_cons_of_ne_nil (fetch_loop_ne_nil bs f W [] rest [] 0)
      rw [ih [] 0, hL]
      simp only [List.dropLast_cons₂, List.cons_append,
        getLastD_cons_of_ne_nil _ _ _ (List.cons_ne_nil c L)]
    · obtain ⟨c, L, hL⟩ :=
        List.exists_cons_of_ne_nil
          (fetch_loop_ne_nil bs f W [] rest [ex] (f ex 1 0))
      rw [ih [ex] (f ex 1 0), hL]
      simp only [List.dropLast_cons₂, List.cons_append,
        getLastD_cons_of_ne_nil _ _ _ (List.cons_ne_nil c L)]
    · exact ih (mb ++ [ex]) (f ex (mb ++ [ex]).length size)

/-- Claim C5: with `reserve=True` and a finite input of length at least
`world_size`, `fetch_batch` sets the first `world_size` examples aside (the
emitted sequence equals the `reserve=False` run on the remaining input,
except that the reserved examples are appended onto the last yielded batch),
so the final batch has at least `world_size` elements. -/
theorem fetch_batch_reserve_final (data : List α) (bs : ℚ)
    (f : α → ℕ → ℚ → ℚ) (W : ℕ) (hW : W ≤ data.length) :
    fetch_batch data bs f W true
      = (fetch_batch (data.drop W) bs f W false).dropLast
        ++ [(fetch_batch (data.drop W) bs f W false).getLastD []
            ++ data.take W]
    ∧ W ≤ ((fetch_batch data bs f W true).getLastD []).length := by
  have h1 : fetch_batch data bs f W true
      = (fetch_batch (data.drop W) bs f W false).dropLast
        ++ [(fetch_batch (data.drop W) bs f W false).getLastD []
            ++ data.take W] := by
    simp only [fetch_batch, if_true, Bool.false_eq_true, if_false]
    exact fetch_loop_reserved bs f W (data.take W) (data.drop W) [] 0
  refine ⟨h1, ?_⟩
  rw [h1, List.getLastD_concat, List.length_append, List.length_take,
    min_eq_left hW]
  exact Nat.le_add_left W _

theorem fetch_batch_reserve_final_witness :
    fetch_batch [0, 1, 2] 3 count_fn 2 true
      = (fetch_batch (([0, 1, 2] : List ℕ).drop 2) 3 count_fn 2 false).dropLast
        ++ [(fetch_batch (([0, 1, 2] : List ℕ).drop 2) 3 count_fn 2
              false).getLastD [] ++ ([0, 1, 2] : List ℕ).take 2]
    ∧ 2 ≤ ((fetch_batch ([0, 1, 2] : List ℕ) 3 count_fn 2 true).getLastD
        []).length :=
  fetch_batch_reserve_final [0, 1, 2] 3 count_fn 2 (by norm_num)

/-- Claim C8: with 7 examples, count-based cost, `batch_size = 3` and
`world_size = 2`, the assembler emits batches of sizes `[6, 1]`
(`reserve=False`, the default); with `reserve=True` the final emitted batch
has at least 2 elements; and splitting the size-6 batch across 2 ranks gives
shards `[0,3)` and `[3,6)` of size 3 each. -/
theorem scenario_seven_examples :
    ((fetch_batch [(0 : ℕ), 1, 2, 3, 4, 5, 6] 3 count_fn 2 false).map
        List.length = [6, 1])
    ∧ 2 ≤ ((fetch_batch [(0 : ℕ), 1, 2, 3, 4, 5, 6] 3 count_fn 2 true).map
        List.length).getLastD 0
    ∧ shard 2 0 [(0 : ℕ), 1, 2, 3, 4, 5] = [0, 1, 2]
    ∧ shard 2 1 [(0 : ℕ), 1, 2, 3, 4, 5] = [3, 4, 5]
    ∧ start_pos 6 2 0 = 0 ∧ end_pos 6 2 0 = 3
    ∧ start_pos 6 2 1 = 3 ∧ end_pos 6 2 1 = 6 := by
  refine ⟨?_, ?_, by decide, by decide, by decide, by decide, by decide,
    by decide⟩
  · norm_num [fetch_batch, fetch_loop, count_fn]
  · norm_num [fetch_batch, fetch_loop, count_fn]

/-- Claim C10: with `reserve=False` the trailing `yield minibatch` of
`fetch_batch` is unconditional, so on a count-based run of exactly
`batch_size * world_size` examples (here 3 examples, `batch_size = 3`,
`world_size = 1`) the final yielded batch is empty — and slicing an empty
batch gives every rank an empty shard. -/
theorem fetch_batch_trailing_empty :
    fetch_batch [(0 : ℕ), 1, 2] 3 count_fn 1 false = [[0, 1, 2], []]
    ∧ ∀ W R : ℕ, shard W R ([] : List ℕ) = [] := by
  constructor
  · norm_num [fetch_batch, fetch_loop, count_fn]
  · intro W R
    simp [shard]

theorem iter_go_eq_drop (swb : Bool) (key : α → ℕ) (W R : ℕ) :
    ∀ (bs : List (List α)) (k idx : ℕ),
      iter_go swb key W R k idx bs
        = (bs.map (process_minibatch swb key W R)).drop (k - idx) := by
  intro bs
  induction bs with
  | nil => intro k idx; simp [iter_go]
  | cons mb rest ih =>
    intro k idx
    rw [iter_go]
    split_ifs with h
    · rw [ih]
      have hk : k - idx = (k - (idx + 1)) + 1 := by omega
      rw [List.map_cons, hk, List.drop_succ_cons]
    · rw [ih]
      have hk1 : k - idx = 0 := by omega
      have hk2 : (k + 1) - (idx + 1) = 0 := by omega
      rw [hk1, hk2, List.map_cons, List.drop_zero, List.drop_zero]

/-- Claim C6: running one epoch of `LazyBucketIterator.__iter__` with the
resume counter `_iterations_this_epoch` loaded as `k` yields exactly the
suffix, from index `k` on, of the run started with counter 0 — identical
batches after the same optional within-batch sort and rank slicing. -/
theorem epoch_iter_resume_suffix (swb : Bool) (key : α → ℕ) (W R k : ℕ)
    (batches : List (List α)) :
    epoch_iter swb key W R k batches
      = (epoch_iter swb key W R 0 batches).drop k := by
  simp [epoch_iter, iter_go_eq_drop]

theorem exceeds_max_false_iff (m : ℕ) :
    ∀ ls : List (List Char),
      exceeds_max m ls = false ↔ ∀ l ∈ ls, (py_split l).length ≤ m := by
  intro ls
  induction ls with
  | nil => simp [exceeds_max]
  | cons l ls ih =>
    rw [exceeds_max]
    split_ifs with h
    · simp only [List.forall_mem_cons]
      constructor
      · intro hF
        exact absurd hF (by simp)
      · intro hall
        omega
    · rw [ih]
      simp only [List.forall_mem_cons]
      constructor
      · intro hall
        exact ⟨by omega, hall⟩
      · intro hall
        exact hall.2

/-- Claim C7: `lazy_reader` produces an Example from an aligned line-tuple if
and only if no field is empty after stripping and, when `max_len` is set, no
field's whitespace-token count exceeds it; the produced example is the tuple
of stripped fields, and failing tuples are dropped (`none`), never an error. -/
theorem read_tuple_filter_iff (lines : List (List Char))
    (max_len : Option ℕ) :
    ((read_tuple lines max_len).isSome = true ↔
      ((∀ l ∈ lines, py_strip l ≠ [])
        ∧ ∀ m : ℕ, max_len = some m →
            ∀ l ∈ lines, (py_split (py_strip l)).length ≤ m))
    ∧ ∀ ex, read_tuple lines max_len = some ex → ex = lines.map py_strip := by
  have hany : (lines.map py_strip).any (fun l => l.isEmpty) = false
      ↔ ∀ l ∈ lines, py_strip l ≠ [] := by
    rw [← Bool.not_eq_true, List.any_eq_true]
    simp [List.mem_map]
  have hexm : ∀ m : ℕ, exceeds_max m (lines.map py_strip) = false
      ↔ ∀ l ∈ lines, (py_split (py_strip l)).length ≤ m := by
    intro m
    rw [exceeds_max_false_iff]
    constructor
    · intro h l hl
      exact h (py_strip l) (List.mem_map_of_mem py_strip hl)
    · intro h l hl
      obtain ⟨x, hx, hxe⟩ := List.mem_map.mp hl
      exact hxe ▸ h x hx
  cases max_len with
  | none =>
    cases hA : (lines.map py_strip).any fun l => l.isEmpty with
    | false =>
      have hval : read_tuple lines none = some (lines.map py_strip) := by
        rw [read_tuple.eq_def, hA]
        simp
      rw [hval]
      refine ⟨?_, fun ex hex => (Option.some_inj.mp hex).symm⟩
      simp only [Option.isSome_some, true_iff]
      exact ⟨hany.mp hA, fun m hm => by cases hm⟩
    | true =>
      have hval : read_tuple lines none = none := by
        rw [read_tuple.eq_def, hA]
        simp
      rw [hval]
      refine ⟨iff_of_false (by simp) ?_, fun ex hex => by cases hex⟩
      intro hcon
      have h := hany.mpr hcon.1
      rw [hA] at h
      cases h
  | some m =>
    cases hA : (lines.map py_strip).any fun l => l.isEmpty with
    | false =>
      cases hE : exceeds_max m (lines.map py_strip) with
      | false =>
        have hval : read_tuple lines (some m) = some (lines.map py_strip) := by
          rw [read_tuple.eq_def, hA]
          simp [hE]
        rw [hval]
        refine ⟨?_, fun ex hex => (Option.some_inj.mp hex).symm⟩
        simp only [Option.isSome_some, true_iff]
        refine ⟨hany.mp hA, fun n hn => ?_⟩
        cases hn
        exact (hexm m).mp hE
      | true =>
        have hval : read_tuple lines (some m) = none := by
          rw [read_tuple.eq_def, hA]
          simp [hE]
        rw [hval]
        refine ⟨iff_of_false (by simp) ?_, fun ex hex => by cases hex⟩
        intro hcon
        have h := (hexm m).mpr (hcon.2 m rfl)
        rw [hE] at h
        cases h
    | true =>
      have hval : read_tuple lines (some m) = none := by
        rw [read_tuple.eq_def, hA]
        simp
      rw [hval]
      refine ⟨iff_of_false (by simp) ?_, fun ex hex => by cases hex⟩
      intro hcon
      have h := hany.mpr hcon.1
      rw [hA] at h
      cases h

theorem read_tuple_filter_iff_witness :
    (read_tuple [[' ', 'a', 'b', ' '], ['c', 'd']] (some 1)).isSome = true :=
  ((read_tuple_filter_iff [[' ', 'a', 'b', ' '], ['c', 'd']] (some 1)).1).mpr
    ⟨by decide, fun m hm => by cases hm; decide⟩

theorem accum_without_padding (b : List PyExample) :
    ∀ (i : ℕ) (s : ℚ),
      accum_cost dyn_batch_without_padding b i s
        = s + ((b.map max_field_len).sum : ℚ) := by
  induction b with
  | nil => intro i s; simp [accum_cost]
  | cons e rest ih =>
    intro i s
    simp only [accum_cost, dyn_batch_without_padding, ih, List.map_cons,
      List.sum_cons]
    push_cast [max_field_len]
    ring

theorem accum_with_padding :
    ∀ (rest : List PyExample) (i M : ℕ), 1 ≤ i →
      accum_cost dyn_batch_with_padding rest i ((M : ℚ) * (i : ℚ))
        = ((max M (batch_max_len rest) : ℕ) : ℚ)
            * (((i + rest.length : ℕ) : ℕ) : ℚ) := by
  intro rest
  induction rest with
  | nil =>
    intro i M hi
    simp [accum_cost, batch_max_len]
  | cons e rest ih =>
    intro i M hi
    simp only [accum_cost]
    have hstep : dyn_batch_with_padding e (i + 1) ((M : ℚ) * (i : ℚ))
        = ((max (max_field_len e) M : ℕ) : ℚ) * (((i + 1 : ℕ) : ℕ) : ℚ) := by
      rw [dyn_batch_with_padding, if_pos (by omega : 1 < i + 1)]
      have hiq : ((i + 1 : ℕ) : ℚ) - 1 = (i : ℚ) := by
        push_cast
        ring
      rw [hiq]
      have hne : (i : ℚ) ≠ 0 := Nat.cast_ne_zero.mpr (by omega)
      rw [mul_div_cancel_right₀ _ hne]
      push_cast [max_field_len]
      ring
    rw [hstep, ih (i + 1) (max (max_field_len e) M) (by omega)]
    have h1 : max (max (max_field_len e) M) (batch_max_len rest)
        = max M (batch_max_len (e :: rest)) := by
      simp only [batch_max_len, List.map_cons, List.foldr_cons]
      omega
    have h2 : i + 1 + rest.length = i + (e :: rest).length := by
      simp only [List.length_cons]
      omega
    rw [h1, h2]

/-- Claim C9: the built-in cost functions have their specified meanings — the
count policy returns the batch position; `dyn_batch_without_padding` folds to
the sum over the batch of each example's maximal field length; and
`dyn_batch_with_padding`, folded from cost 0, returns the running maximum
field length times the number of examples seen, with `sofar / (i - 1)` taken
in exact rational arithmetic. -/
theorem cost_fn_semantics :
    (∀ (e : PyExample) (n : ℕ) (s : ℚ), count_fn e n s = (n : ℚ))
    ∧ (∀ b : List PyExample,
        batch_cost dyn_batch_without_padding b
          = ((b.map max_field_len).sum : ℚ))
    ∧ (∀ b : List PyExample,
        batch_cost dyn_batch_with_padding b
          = ((batch_max_len b : ℕ) : ℚ) * ((b.length : ℕ) : ℚ)) := by
  refine ⟨fun e n s => rfl, fun b => ?_, fun b => ?_⟩
  · rw [batch_cost, accum_without_padding b 0 0]
    ring
  · cases b with
    | nil => simp [batch_cost, accum_cost, batch_max_len]
    | cons e rest =>
      rw [batch_cost]
      simp only [accum_cost, Nat.zero_add]
      have h0 : dyn_batch_with_padding e 1 0
          = ((max_field_len e : ℕ) : ℚ) * ((1 : ℕ) : ℚ) := by
        rw [dyn_batch_with_padding, if_neg (by omega : ¬ 1 < 1)]
        have hnn : (0 : ℚ) ≤ max (e.src.length : ℚ) (e.trg.length : ℚ) :=
          le_trans (Nat.cast_nonneg _) (le_max_left _ _)
        rw [max_eq_left hnn]
        push_cast [max_field_len]
        ring
      rw [h0, accum_with_padding rest 1 (max_field_len e) (Nat.le_refl 1)]
      have h1 : max (max_field_len e) (batch_max_len rest)
          = batch_max_len (e :: rest) := by
        simp [batch_max_len]
      have h2 : 1 + rest.length = (e :: rest).length := by
        simp only [List.length_cons]
        omega
      rw [h1, h2]
